import Mathlib

/-
Verification of the diff-to-annotated-text transformation of md_diff
(src/mddiff.py).  Lines of text are modelled as lists of characters;
the functions below are shallow embeddings of the corresponding Python
code: `diff_replace` (the locate / header-strip / highlight pipeline),
the git acquisition helpers `diff_from_sha` and `diff_from_branch`, and
the `--diff` file source of `run`.
-/

/-- A line of text, as a list of characters. -/
abbrev Line := List Char

/-- Whitespace characters stripped by Python's `str.strip()` and matched by
the regex class backslash-s, restricted to the ASCII range: space, tab,
newline, carriage return, vertical tab (11) and form feed (12). -/
def isPyWS (c : Char) : Bool :=
  c = ' ' || c = '\t' || c = '\n' || c = '\r' || c = Char.ofNat 11 || c = Char.ofNat 12

/-- Single-quote character (code 39), occurring in the span markup strings. -/
def sqc : Char := Char.ofNat 39

/-- Leading-segment test: `pfx p l` is true when `p` is an initial segment of
`l`.  Models Python's `str.startswith` and anchored literal regex matching. -/
def pfx : Line → Line → Bool
  | [], _ => true
  | _ :: _, [] => false
  | a :: p, b :: l => a == b && pfx p l

/-- Python `str.strip()`: remove leading and trailing whitespace. -/
def pyStrip (l : Line) : Line :=
  ((l.dropWhile isPyWS).reverse.dropWhile isPyWS).reverse

/-- Comparison function following the specification's words only ("removes
trailing whitespace and only trailing whitespace ... leading characters
preserved"): strip trailing whitespace, keep everything before it. -/
def stripTrailing (l : Line) : Line :=
  (l.reverse.dropWhile isPyWS).reverse

/-- One pass of Python `str.replace` for a two-character needle `a,b`:
scan left to right, replacing each non-overlapping occurrence by `v`. -/
def rep2 (a b : Char) (v : Line) : Line → Line
  | [] => []
  | [c] => [c]
  | c :: d :: cs =>
    if c = a ∧ d = b then v ++ rep2 a b v cs else c :: rep2 a b v (d :: cs)

/-- The string `<span style='background-color: #d88'>` (remove highlight). -/
def spanRemOpen : Line :=
  "<span style=".toList ++ sqc :: "background-color: #d88".toList ++ [sqc, '>']

/-- The string `<span style='background-color: #8d8'>` (add highlight). -/
def spanAddOpen : Line :=
  "<span style=".toList ++ sqc :: "background-color: #8d8".toList ++ [sqc, '>']

/-- The string `</span>`. -/
def spanClose : Line := "</span>".toList

/-- The string `</span><br>` closing a whole-line highlight. -/
def spanCloseBr : Line := "</span><br>".toList

/-- One entry of the `replacements` dict of `diff_replace`: a two-character
token `a,b` and its replacement text `v`. -/
structure Rule where
  a : Char
  b : Char
  v : Line
deriving DecidableEq

/-- The replacement rule for the token `[-`. -/
def ruleRemOpen : Rule := ⟨'[', '-', spanRemOpen⟩

/-- The replacement rule for the token `-]`. -/
def ruleRemClose : Rule := ⟨'-', ']', spanClose⟩

/-- The replacement rule for the token `{+` (written with escapes). -/
def ruleAddOpen : Rule := ⟨'\x7b', '+', spanAddOpen⟩

/-- The replacement rule for the token `+}` (written with escapes). -/
def ruleAddClose : Rule := ⟨'+', '\x7d', spanClose⟩

/-- The `replacements` dict of `diff_replace`, in insertion order. -/
def rules : List Rule := [ruleRemOpen, ruleRemClose, ruleAddOpen, ruleAddClose]

/-- Apply one replacement rule to a line (`line = line.replace(k, v)`). -/
def applyRule (l : Line) (r : Rule) : Line := rep2 r.a r.b r.v l

/-- Apply a list of replacement rules in order. -/
def applyRules (rs : List Rule) (l : Line) : Line := rs.foldl applyRule l

/-- The loop `for k, v in replacements.items(): line = line.replace(k, v)`. -/
def applyReplacements (l : Line) : Line := applyRules rules l

/-- Whole-line wrapping of `diff_replace`: on a non-empty line whose first
character is `-`, wrap the rest in the remove span; then, if the (possibly
rewritten) line starts with `+`, wrap its rest in the add span. -/
def highlightWrap (l : Line) : Line :=
  match l with
  | [] => []
  | c :: cs =>
    let l1 := if c = '-' then spanRemOpen ++ cs ++ spanCloseBr else c :: cs
    match l1 with
    | [] => []
    | d :: ds => if d = '+' then spanAddOpen ++ ds ++ spanCloseBr else d :: ds

/-- Per-line processing of the final loop of `diff_replace`: token
substitution, whole-line wrapping, and `line.strip()`. -/
def processLine (l : Line) : Line := pyStrip (highlightWrap (applyReplacements l))

/-- The string `diff --git`, as tested by `line.startswith("diff --git")`. -/
def dgTok : Line := ['d', 'i', 'f', 'f', ' ', '-', '-', 'g', 'i', 't']

/-- The literal part of the header regex: `diff --git a/`. -/
def dgaTok : Line := dgTok ++ [' ', 'a', '/']

/-- The string `@@ `, as tested by `line.startswith("@@ ")`. -/
def hunkTok : Line := ['@', '@', ' ']

/-- Anchored match of the header regex (`diff --git a/` followed by at least
one non-whitespace character), returning the captured run of non-whitespace
characters after `a/`. -/
def matchDiffGit (l : Line) : Option Line :=
  if pfx dgaTok l then
    let path := (l.drop dgaTok.length).takeWhile (fun c => !isPyWS c)
    if path = [] then none else some path
  else none

/-- The start of a marker line: `<div class="file">File: `. -/
def markerTok : Line :=
  ['<', 'd', 'i', 'v', ' ', 'c', 'l', 'a', 's', 's', '=', '"', 'f', 'i', 'l',
   'e', '"', '>', 'F', 'i', 'l', 'e', ':', ' ']

/-- The marker line inserted in place of a file header block, with the
trailing newline of the Python format string. -/
def markerLine (path : Line) : Line := markerTok ++ (path ++ "</div>\n".toList)

/-- Scan for the first line starting with `@@ `, returning its index into the
scanned list; `none` when the list ends first.  This is the inner
`while not diff[end_line].startswith("@@ ")` scan of `diff_replace`, run on
`diff[cur_line:]` so that the result is the offset `end_line - cur_line`. -/
def findHunkIdx : (ls : List Line) → Option (Fin ls.length)
  | [] => none
  | l :: ls =>
    if pfx hunkTok l then some ⟨0, Nat.succ_pos _⟩ else (findHunkIdx ls).map Fin.succ

/-- The header-stripping while-loop of `diff_replace`.  At each line matching
the header regex, the span from the header through the next hunk header is
removed and a marker line is inserted at the cursor; other lines are skipped.
Raises "No end for last diff file" when a matched header has no following
hunk header. -/
def stripLoop (d : List Line) (cur : Nat) : Except String (List Line) :=
  match h : d[cur]? with
  | none => .ok d
  | some line =>
    match hm : matchDiffGit line with
    | some path =>
      match hf : findHunkIdx (d.drop cur) with
      | none => .error "No end for last diff file"
      | some e => stripLoop (d.take cur ++ markerLine path :: d.drop (cur + e.val + 1)) cur
    | none => stripLoop d (cur + 1)
termination_by d.length - cur
decreasing_by
  · obtain ⟨hcur, hget⟩ := List.getElem?_eq_some.mp h
    have hlt : e.val < d.length - cur := by simpa using e.isLt
    have hdga : pfx dgaTok line = true := by
      by_cases hp : pfx dgaTok line
      · exact hp
      · simp [matchDiffGit, hp] at hm
    have hnp : pfx hunkTok line = false := by
      cases line with
      | nil => simp [pfx, dgaTok, dgTok] at hdga
      | cons c t =>
        have hc : c = 'd' := by
          simp [pfx, dgaTok, dgTok] at hdga
          exact hdga.1.symm
        subst hc
        simp [pfx, hunkTok]
    have hdrop : d.drop cur = line :: d.drop (cur + 1) := by
      rw [List.drop_eq_getElem_cons hcur, hget]
    obtain ⟨k, hk⟩ : ∃ k, e.val = k := ⟨e.val, rfl⟩
    have hv : Option.map Fin.val (findHunkIdx (d.drop cur)) = some k := by
      rw [hf]; simp [hk]
    rw [hk] at hlt
    rw [hdrop] at hv
    simp only [findHunkIdx, hnp, if_false] at hv
    have he1 : 1 ≤ k := by
      cases hfi : findHunkIdx (d.drop (cur + 1)) with
      | none => rw [hfi] at hv; simp at hv
      | some e2 => rw [hfi] at hv; simp at hv; omega
    simp only [List.length_append, List.length_take, List.length_cons, List.length_drop, hk]
    omega
  · obtain ⟨hcur, hget⟩ := List.getElem?_eq_some.mp h
    omega

/-- The initial scan of `diff_replace`: index of the first line starting with
`diff --git` (the for/else loop with `break`). -/
def locateStart : List Line → Option Nat
  | [] => none
  | l :: ls => if pfx dgTok l then some 0 else (locateStart ls).map (· + 1)

/-- The function diff_replace: drop everything before the first `diff --git` line
(raising "Invalid diff" when there is none), replace each file header block
by a marker line, then substitute, wrap and strip every remaining line. -/
def diff_replace (d : List Line) : Except String (List Line) :=
  match locateStart d with
  | none => .error "Invalid diff"
  | some i => (stripLoop (d.drop i) 0).map (List.map processLine)

/-- A file block of a well-formed diff document: the header line, preamble
lines before the first hunk header, that hunk header, and the remaining body
lines (the hunk contents) up to the next file block. -/
structure FB where
  header : Line
  pre : List Line
  hunk : Line
  body : List Line

/-- The path captured from a block's header line. -/
def pathOf (b : FB) : Line := (matchDiffGit b.header).getD []

/-- The lines of a file block as they appear in the input document. -/
def blockLines (b : FB) : List Line := b.header :: b.pre ++ b.hunk :: b.body

/-- The marker line produced for a block. -/
def markerOf (b : FB) : Line := markerLine (pathOf b)

/-- The lines a block contributes to the stripped output: its marker followed
by its body. -/
def outBlock (b : FB) : List Line := markerOf b :: b.body

/-- Well-formedness of one file block: the header matches the header regex,
no preamble line starts with `@@ `, the hunk header does, and no body line
starts with `diff --git` or looks like a marker line. -/
def WFblock (b : FB) : Bool :=
  (matchDiffGit b.header).isSome
    && b.pre.all (fun l => !pfx hunkTok l)
    && pfx hunkTok b.hunk
    && b.body.all (fun l => !pfx dgTok l && !pfx markerTok l)

/-- Test for a marker line (by its fixed leading text). -/
def isMarkerL (l : Line) : Bool := pfx markerTok l

/-- Test that a line does not start with `diff --git`. -/
def notDg (l : Line) : Bool := !pfx dgTok l

/-- Substring occurrence test: true when `p` occurs contiguously in `l`. -/
def hasSub (p : Line) : Line → Bool
  | [] => pfx p []
  | c :: t => pfx p (c :: t) || hasSub p t

/-- The three-character overlap pattern of the remove tokens. -/
def ovRem : Line := ['[', '-', ']']

/-- The three-character overlap pattern of the add tokens. -/
def ovAdd : Line := ['\x7b', '+', '\x7d']

/-- A line in which no occurrence of one replacement token overlaps an
occurrence of another: it contains neither overlap pattern. -/
def noOv (l : Line) : Bool := !hasSub ovRem l && !hasSub ovAdd l

/-- Absence of adjacent characters `a,b` in a line. -/
def noPair (a b : Char) : Line → Bool
  | c :: d :: t => !(c == a && d == b) && noPair a b (d :: t)
  | _ => true

/-- Both ends of a line are free of whitespace. -/
def noEdgeWS (l : Line) : Bool :=
  (match l.head? with
   | none => true
   | some c => !isPyWS c)
  && (match l.getLast? with
      | none => true
      | some c => !isPyWS c)

/-- What a git child process wrote to its two output streams. -/
structure ProcOutput where
  out : List Char
  err : List Char

/-- Model of `Popen(args, stdout=PIPE, stderr=STDOUT)` followed by
`output, err = p.communicate()`: the child's stderr is redirected into the
captured stdout stream (modelled as concatenation), and `err` is `None`
because no separate stderr pipe exists. -/
def communicateMerged (p : ProcOutput) : List Char × Option (List Char) :=
  (p.out ++ p.err, none)

/-- Python `text.split("\n")`. -/
def splitNL : List Char → List (List Char)
  | [] => [[]]
  | c :: t =>
    if c = '\n' then [] :: splitNL t
    else
      match splitNL t with
      | [] => [[c]]
      | h :: r => (c :: h) :: r

/-- The text of the `Exception("Failed git call: %s" % str(err))` message. -/
def gitFailTok : List Char := "Failed git call: ".toList

/-- The TypeError raised by `output.split("\n")` when `output` is an
undecoded bytes object, as in `diff_from_sha`. -/
def typeErrTok : List Char :=
  "TypeError: a bytes-like object is required, not ".toList ++ sqc :: 's' :: 't' :: 'r' :: [sqc]

/-- The function diff_from_branch: run git with stderr merged into stdout, raise only
when `communicate()` returns a truthy `err` (it never does), decode, and
split into lines. -/
def diff_from_branch (p : ProcOutput) : Except (List Char) (List (List Char)) :=
  match (communicateMerged p).2 with
  | some e => if e ≠ [] then .error (gitFailTok ++ e) else .ok (splitNL (communicateMerged p).1)
  | none => .ok (splitNL (communicateMerged p).1)

/-- The function diff_from_sha: as `diff_from_branch`, except the captured output is
never decoded, so the final `output.split("\n")` applies `str.split` to a
bytes object and raises a TypeError whenever it is reached. -/
def diff_from_sha (p : ProcOutput) : Except (List Char) (List (List Char)) :=
  match (communicateMerged p).2 with
  | some e => if e ≠ [] then .error (gitFailTok ++ e) else .error typeErrTok
  | none => .error typeErrTok

/-- Model of `fd.readline()` on a file's character contents: the characters
up to and including the first newline. -/
def readlineM : List Char → List Char
  | [] => []
  | c :: t => c :: (if c = '\n' then [] else readlineM t)

/-- Iterating a Python string yields its characters as one-character
strings; this is what `diff_replace` receives when `run` passes it the
single string read by `fd.readline()` in the `--diff` branch. -/
def charLines (s : List Char) : List Line := s.map (fun c => [c])

/-- Contents of a small two-hunk diff file used as a failing input. -/
def c8file : List Char := "diff --git a/f\n@@ -1 +1 @@\n+x\n".toList

/-- A concrete well-formed file block (line-level diff). -/
def sampleBlockA : FB :=
  ⟨"diff --git a/alpha.txt b/alpha.txt".toList,
   ["index 123..456 100644".toList, "--- a/alpha.txt".toList, "+++ b/alpha.txt".toList],
   "@@ -1,2 +1,2 @@".toList,
   ["-old line".toList, "+new line".toList]⟩

/-- A second concrete well-formed file block. -/
def sampleBlockB : FB :=
  ⟨"diff --git a/beta.txt b/beta.txt".toList,
   [],
   "@@ -1 +1 @@".toList,
   [" context".toList]⟩

/-- A document with no `diff --git` line. -/
def c6doc : List Line := ["hello".toList, "world".toList]

/-- A document whose header has no following hunk header. -/
def c7doc : List Line := ["diff --git a/gamma.txt".toList, "index 9".toList]

/-- The document formed from the single block `sampleBlockB`. -/
def c10doc : List Line := (List.map blockLines [sampleBlockB]).flatten

/-- The annotated output of `diff_replace` on `c10doc`. -/
def c10out : List Line :=
  ["<div class=\"file\">File: beta.txt</div>".toList, "context".toList]

/-- A git process result with non-empty stderr. -/
def procErrSample : ProcOutput := ⟨"line1\n".toList, "fatal: bad revision".toList⟩

/-- The rules list with the two remove rules swapped. -/
def ordSwap : List Rule := [ruleRemClose, ruleRemOpen, ruleAddOpen, ruleAddClose]

/-- The rules list fully reversed. -/
def ordRev : List Rule := [ruleAddClose, ruleAddOpen, ruleRemClose, ruleRemOpen]

/-- A word-diff line without overlapping token occurrences. -/
def c2wex : Line := "a [-b-] c ".toList ++ '\x7b' :: '+' :: 'd' :: '+' :: ['\x7d']

/-- The line `[-]`, on which the remove-token substitutions overlap. -/
def c2cex : Line := ['[', '-', ']']

/-- The middle text `[-old-]{+new+}` of the word-diff rewriting claim. -/
def c4mid : Line :=
  ['[', '-', 'o', 'l', 'd', '-', ']', '\x7b', '+', 'n', 'e', 'w', '+', '\x7d']

/-- The line `-removed text`. -/
def c3ex : Line := "-removed text".toList

/-- The line ` a` (leading whitespace, no diff tokens). -/
def c5ex : Line := [' ', 'a']

/-- The first substitution pass applied to `c4mid`. -/
def c4m1 : Line := spanRemOpen ++ "old-]\x7b+new+\x7d".toList

/-- The first two substitution passes applied to `c4mid`. -/
def c4m2 : Line := spanRemOpen ++ "old".toList ++ spanClose ++ "\x7b+new+\x7d".toList

/-- The first three substitution passes applied to `c4mid`. -/
def c4m3 : Line := spanRemOpen ++ "old".toList ++ spanClose ++ spanAddOpen ++ "new+\x7d".toList

/-- The full substitution result for `c4mid`: remove-markup-start, `old`,
markup-end, add-markup-start, `new`, markup-end. -/
def c4out : Line :=
  spanRemOpen ++ "old".toList ++ spanClose ++ spanAddOpen ++ "new".toList ++ spanClose

theorem pfx_append (p x : Line) : pfx p (p ++ x) = true := by
  induction p with
  | nil => rfl
  | cons a p ih => simp [pfx, ih]

theorem pfx_cons_ex {a : Char} {p l : Line} (h : pfx (a :: p) l = true) :
    ∃ t, l = a :: t ∧ pfx p t = true := by
  cases l with
  | nil => simp [pfx] at h
  | cons b t =>
    simp [pfx] at h
    exact ⟨t, by rw [h.1], h.2⟩

theorem pfx_trans {p q l : Line} (h1 : pfx p q = true) (h2 : pfx q l = true) :
    pfx p l = true := by
  induction p generalizing q l with
  | nil => rfl
  | cons a p ih =>
    obtain ⟨q1, rfl, hq⟩ := pfx_cons_ex h1
    obtain ⟨l1, rfl, hl⟩ := pfx_cons_ex h2
    simp [pfx]
    exact ih hq hl

theorem sl_stop {d : List Line} {cur : Nat} (h : d.length ≤ cur) : stripLoop d cur = .ok d := by
  rw [stripLoop]
  split
  · rfl
  · rename_i line heq
    rw [List.getElem?_eq_none h] at heq
    cases heq

theorem head?_append_left {l m : Line} (h : l ≠ []) : (l ++ m).head? = l.head? := by
  cases l with
  | nil => exact absurd rfl h
  | cons c t => rfl

theorem mdg_dga {l p : Line} (h : matchDiffGit l = some p) : pfx dgaTok l = true := by
  by_cases hp : pfx dgaTok l
  · exact hp
  · simp [matchDiffGit, hp] at h

theorem pfx_dg_dga : pfx dgTok dgaTok = true := by
  rw [dgaTok]
  exact pfx_append _ _

theorem mdg_dg {l p : Line} (h : matchDiffGit l = some p) : pfx dgTok l = true :=
  pfx_trans pfx_dg_dga (mdg_dga h)

theorem mdg_of_not_dg {l : Line} (h : pfx dgTok l = false) : matchDiffGit l = none := by
  by_cases hp : pfx dgaTok l
  · rw [pfx_trans pfx_dg_dga hp] at h
    cases h
  · simp [matchDiffGit, hp]

theorem mdg_head {l p : Line} (h : matchDiffGit l = some p) : ∃ t, l = 'd' :: t := by
  have hd := mdg_dga h
  cases l with
  | nil => simp [dgaTok, dgTok, pfx] at hd
  | cons c t =>
    have hc : c = 'd' := by
      simp [dgaTok, dgTok, pfx] at hd
      exact hd.1.symm
    exact ⟨t, by rw [hc]⟩

theorem mdg_not_hunk {l p : Line} (h : matchDiffGit l = some p) : pfx hunkTok l = false := by
  obtain ⟨t, rfl⟩ := mdg_head h
  simp [hunkTok, pfx]

theorem marker_pfx (p : Line) : pfx markerTok (markerLine p) = true := by
  rw [markerLine]
  exact pfx_append _ _

theorem marker_not_dg (p : Line) : pfx dgTok (markerLine p) = false := by
  rw [markerLine]
  simp [markerTok, dgTok, pfx]

theorem mdg_marker (p : Line) : matchDiffGit (markerLine p) = none :=
  mdg_of_not_dg (marker_not_dg p)

theorem fhi_at : ∀ {ls : List Line} {e : Fin ls.length}, findHunkIdx ls = some e →
    pfx hunkTok (ls.get e) = true := by
  intro ls
  induction ls with
  | nil => intro e h; cases h
  | cons l ls ih =>
    intro e h
    rw [findHunkIdx] at h
    by_cases hp : pfx hunkTok l
    · rw [if_pos hp] at h
      cases h
      exact hp
    · rw [if_neg hp] at h
      cases hfi : findHunkIdx ls with
      | none => rw [hfi] at h; cases h
      | some e2 =>
        rw [hfi] at h
        cases h
        simpa using ih hfi

theorem fhi_none : ∀ {ls : List Line}, findHunkIdx ls = none →
    ∀ l ∈ ls, pfx hunkTok l = false := by
  intro ls
  induction ls with
  | nil => intro _ l hl; cases hl
  | cons x ls ih =>
    intro h l hl
    rw [findHunkIdx] at h
    by_cases hp : pfx hunkTok x
    · rw [if_pos hp] at h; cases h
    · rw [if_neg hp] at h
      rcases List.mem_cons.mp hl with rfl | hl2
      · exact Bool.not_eq_true _ ▸ by simpa using hp
      · exact ih (by simpa using h) l hl2

theorem fhi_app {hk : Line} (hh : pfx hunkTok hk = true) :
    ∀ (xs z : List Line), (∀ l ∈ xs, pfx hunkTok l = false) →
    Option.map Fin.val (findHunkIdx (xs ++ hk :: z)) = some xs.length := by
  intro xs
  induction xs with
  | nil =>
    intro z _
    simp [findHunkIdx, hh]
  | cons x xs ih =>
    intro z hno
    have hx : pfx hunkTok x = false := hno x (by simp)
    rw [List.cons_append, findHunkIdx, if_neg (by simp [hx])]
    cases hfi : findHunkIdx (xs ++ hk :: z) with
    | none =>
      have := ih z (fun l hl => hno l (by simp [hl]))
      rw [hfi] at this
      cases this
    | some e =>
      have := ih z (fun l hl => hno l (by simp [hl]))
      rw [hfi] at this
      simp at this
      simp [this]

theorem getElem?_append_len (D : List Line) (m : Line) (w : List Line) :
    (D ++ m :: w)[D.length]? = some m := by
  rw [List.getElem?_append_right (le_refl _)]
  simp

theorem sl_skip : ∀ (mid : List Line), (∀ l ∈ mid, matchDiffGit l = none) →
    ∀ (D z : List Line),
    stripLoop (D ++ (mid ++ z)) D.length = stripLoop (D ++ (mid ++ z)) (D.length + mid.length) := by
  intro mid
  induction mid with
  | nil => intro _ D z; rfl
  | cons m mid ih =>
    intro hno D z
    have hm : matchDiffGit m = none := hno m (by simp)
    have hX : (D ++ ((m :: mid) ++ z))[D.length]? = some m := by
      rw [List.cons_append]
      exact getElem?_append_len D m (mid ++ z)
    conv_lhs => rw [stripLoop]
    split
    · rename_i heq
      rw [hX] at heq
      cases heq
    · rename_i line heq
      rw [hX] at heq
      cases heq
      split
      · rename_i path heq2
        rw [hm] at heq2
        cases heq2
      · have h1 : D ++ ((m :: mid) ++ z) = (D ++ [m]) ++ (mid ++ z) := by simp
        have h2 : D.length + 1 = (D ++ [m]).length := by simp
        have h3 : D.length + (m :: mid).length = (D ++ [m]).length + mid.length := by
          simp
          omega
        rw [h1, h2, h3]
        exact ih (fun l hl => hno l (by simp [hl])) (D ++ [m]) z

theorem wfblock_parts {b : FB} (h : WFblock b = true) :
    (matchDiffGit b.header).isSome = true
    ∧ (∀ l ∈ b.pre, pfx hunkTok l = false)
    ∧ pfx hunkTok b.hunk = true
    ∧ (∀ l ∈ b.body, pfx dgTok l = false ∧ pfx markerTok l = false) := by
  simp only [WFblock, Bool.and_eq_true, List.all_eq_true, Bool.not_eq_true] at h
  obtain ⟨⟨⟨h1, h2⟩, h3⟩, h4⟩ := h
  refine ⟨h1, fun l hl => by simpa using h2 l hl, h3, fun l hl => ?_⟩
  have := h4 l hl
  simpa [Bool.and_eq_true, Bool.not_eq_true] using this

theorem sl_main : ∀ (bs : List FB) (D : List Line),
    (∀ l ∈ D, matchDiffGit l = none) → bs.all WFblock = true →
    stripLoop (D ++ (List.map blockLines bs).flatten) D.length
      = .ok (D ++ (List.map outBlock bs).flatten) := by
  intro bs
  induction bs with
  | nil =>
    intro D _ _
    simpa using sl_stop (le_refl D.length)
  | cons b bs ih =>
    intro D hD hwf
    have hwfb : WFblock b = true := by
      simp only [List.all_cons, Bool.and_eq_true] at hwf
      exact hwf.1
    have hwfs : bs.all WFblock = true := by
      simp only [List.all_cons, Bool.and_eq_true] at hwf
      exact hwf.2
    obtain ⟨hsome, hpre, hhunk, hbody⟩ := wfblock_parts hwfb
    obtain ⟨p, hp⟩ := Option.isSome_iff_exists.mp hsome
    have hpath : pathOf b = p := by simp [pathOf, hp]
    have hX : (D ++ ((blockLines b :: List.map blockLines bs).flatten))[D.length]? = some b.header := by
      rw [List.flatten_cons, blockLines, List.cons_append]
      exact getElem?_append_len D b.header _
    conv_lhs => rw [List.map_cons, stripLoop]
    split
    · rename_i heq
      rw [hX] at heq
      cases heq
    · rename_i line heq
      rw [hX] at heq
      cases heq
      split
      case h_2 heq2 =>
        rw [hp] at heq2
        cases heq2
      case h_1 path heq2 =>
        rw [hp] at heq2
        cases heq2
        -- the hunk search over the dropped suffix
        have hdropW : List.drop D.length (D ++ (blockLines b :: List.map blockLines bs).flatten)
            = (b.header :: b.pre) ++ b.hunk :: (b.body ++ (List.map blockLines bs).flatten) := by
          rw [List.drop_left]
          simp [blockLines]
        have hfw : Option.map Fin.val (findHunkIdx
            (List.drop D.length (D ++ (blockLines b :: List.map blockLines bs).flatten)))
            = some (b.pre.length + 1) := by
          rw [hdropW]
          have := fhi_app hhunk (b.header :: b.pre) (b.body ++ (List.map blockLines bs).flatten) ?hno
          · simpa using this
          case hno =>
            intro l hl
            rcases List.mem_cons.mp hl with rfl | hl2
            · exact mdg_not_hunk hp
            · exact hpre l hl2
        split
        case h_1 heq3 =>
          rw [heq3] at hfw
          cases hfw
        case h_2 e heq3 =>
          rw [heq3] at hfw
          have hev : e.val = b.pre.length + 1 := by
            simpa using hfw
          -- reduce take and drop
          have htake : List.take D.length (D ++ (blockLines b :: List.map blockLines bs).flatten) = D :=
            List.take_left D _
          have hdrop2 : List.drop (D.length + e.val + 1)
              (D ++ (blockLines b :: List.map blockLines bs).flatten)
              = b.body ++ (List.map blockLines bs).flatten := by
            have hsplit : D ++ (blockLines b :: List.map blockLines bs).flatten
                = (D ++ (b.header :: (b.pre ++ [b.hunk])))
                  ++ (b.body ++ (List.map blockLines bs).flatten) := by
              simp [blockLines]
            rw [hev, hsplit]
            have hlen : D.length + (b.pre.length + 1) + 1
                = (D ++ (b.header :: (b.pre ++ [b.hunk]))).length := by
              simp
              omega
            rw [hlen, List.drop_left]
          rw [htake, hdrop2]
          -- now apply the skip lemma over the marker and body, then the ih
          have hmid : ∀ l ∈ markerLine p :: b.body, matchDiffGit l = none := by
            intro l hl
            rcases List.mem_cons.mp hl with rfl | hl2
            · exact mdg_marker p
            · exact mdg_of_not_dg (hbody l hl2).1
          have hskip := sl_skip (markerLine p :: b.body) hmid D
            ((List.map blockLines bs).flatten)
          have hshape : D ++ ((markerLine p :: b.body) ++ (List.map blockLines bs).flatten)
              = D ++ markerLine p :: (b.body ++ (List.map blockLines bs).flatten) := by
            simp
          rw [hshape] at hskip
          rw [hskip]
          have hih := ih (D ++ (markerLine p :: b.body))
            (by
              intro l hl
              rcases List.mem_append.mp hl with hl1 | hl2
              · exact hD l hl1
              · exact hmid l hl2)
            hwfs
          have hshape2 : (D ++ (markerLine p :: b.body)) ++ (List.map blockLines bs).flatten
              = D ++ markerLine p :: (b.body ++ (List.map blockLines bs).flatten) := by
            simp
          rw [hshape2] at hih
          have hcur : D.length + (markerLine p :: b.body).length
              = (D ++ (markerLine p :: b.body)).length := by
            simp
          rw [hcur]
          rw [hih]
          congr 1
          simp [outBlock, markerOf, hpath]

theorem out_filter_markers : ∀ (bs : List FB), bs.all WFblock = true →
    ((List.map outBlock bs).flatten).filter isMarkerL = List.map markerOf bs := by
  intro bs
  induction bs with
  | nil => intro _; rfl
  | cons b bs ih =>
    intro hwf
    have hwfb : WFblock b = true := by
      simp only [List.all_cons, Bool.and_eq_true] at hwf
      exact hwf.1
    have hwfs : bs.all WFblock = true := by
      simp only [List.all_cons, Bool.and_eq_true] at hwf
      exact hwf.2
    obtain ⟨_, _, _, hbody⟩ := wfblock_parts hwfb
    rw [List.map_cons, List.flatten_cons, List.filter_append, ih hwfs]
    have h1 : List.filter isMarkerL (outBlock b) = [markerOf b] := by
      rw [outBlock]
      have hm : isMarkerL (markerOf b) = true := by
        rw [isMarkerL, markerOf]
        exact marker_pfx _
      rw [List.filter_cons, if_pos hm]
      have h2 : List.filter isMarkerL b.body = [] := by
        rw [List.filter_eq_nil_iff]
        intro l hl
        rw [isMarkerL]
        simp [(hbody l hl).2]
      rw [h2]
    rw [h1, List.map_cons]
    rfl

theorem out_notdg : ∀ (bs : List FB), bs.all WFblock = true →
    ((List.map outBlock bs).flatten).all notDg = true := by
  intro bs
  induction bs with
  | nil => intro _; rfl
  | cons b bs ih =>
    intro hwf
    have hwfb : WFblock b = true := by
      simp only [List.all_cons, Bool.and_eq_true] at hwf
      exact hwf.1
    have hwfs : bs.all WFblock = true := by
      simp only [List.all_cons, Bool.and_eq_true] at hwf
      exact hwf.2
    obtain ⟨_, _, _, hbody⟩ := wfblock_parts hwfb
    rw [List.map_cons, List.flatten_cons, List.all_append, ih hwfs, Bool.and_true]
    rw [outBlock, List.all_cons]
    have h1 : notDg (markerOf b) = true := by
      rw [notDg, markerOf]
      simp [marker_not_dg]
    rw [h1, Bool.true_and, List.all_eq_true]
    intro l hl
    simp [notDg, (hbody l hl).1]

/-- C1: for a well-formed diff document made of file blocks, the
header-stripping phase of diff_replace succeeds, producing each block's
marker line followed by its body; the output's marker lines are exactly one
`File: <path>` marker per block, in input order, and no output line starts
with `diff --git`. -/
theorem stripPhase_markers (bs : List FB) (h : bs.all WFblock = true) :
    stripLoop ((List.map blockLines bs).flatten) 0 = .ok ((List.map outBlock bs).flatten)
    ∧ ((List.map outBlock bs).flatten).filter isMarkerL = List.map markerOf bs
    ∧ ((List.map outBlock bs).flatten).all notDg = true := by
  refine ⟨?_, out_filter_markers bs h, out_notdg bs h⟩
  have := sl_main bs [] (by intro l hl; cases hl) h
  simpa using this

/-- Witness for C1 on a concrete two-block diff. -/
theorem stripPhase_markers_witness :
    ([sampleBlockA, sampleBlockB].all WFblock = true)
    ∧ stripLoop ((List.map blockLines [sampleBlockA, sampleBlockB]).flatten) 0
        = .ok ((List.map outBlock [sampleBlockA, sampleBlockB]).flatten)
    ∧ ((List.map outBlock [sampleBlockA, sampleBlockB]).flatten).filter isMarkerL
        = List.map markerOf [sampleBlockA, sampleBlockB] :=
  ⟨by decide, (stripPhase_markers [sampleBlockA, sampleBlockB] (by decide)).1,
    (stripPhase_markers [sampleBlockA, sampleBlockB] (by decide)).2.1⟩

theorem loc_none_of : ∀ {d : List Line}, (∀ l ∈ d, pfx dgTok l = false) →
    locateStart d = none := by
  intro d
  induction d with
  | nil => intro _; rfl
  | cons x xs ih =>
    intro h
    rw [locateStart, if_neg (by simp [h x (by simp)]), ih (fun l hl => h l (by simp [hl]))]
    rfl

theorem loc_some_spec : ∀ {d : List Line} {i : Nat}, locateStart d = some i →
    ∃ hi : i < d.length, pfx dgTok (d.get ⟨i, hi⟩) = true
      ∧ ∀ j, (hj : j < d.length) → j < i → pfx dgTok (d.get ⟨j, hj⟩) = false := by
  intro d
  induction d with
  | nil => intro i h; cases h
  | cons x xs ih =>
    intro i h
    rw [locateStart] at h
    by_cases hp : pfx dgTok x
    · rw [if_pos hp] at h
      cases h
      exact ⟨Nat.succ_pos _, hp, fun j hj hji => absurd hji (by omega)⟩
    · rw [if_neg hp] at h
      cases hloc : locateStart xs with
      | none => rw [hloc] at h; cases h
      | some i2 =>
        rw [hloc] at h
        simp only [Option.map_some'] at h
        cases h
        obtain ⟨hi2, hget, hbef⟩ := ih hloc
        refine ⟨by simpa using Nat.succ_lt_succ hi2, by simpa using hget, ?_⟩
        intro j hj hji
        cases j with
        | zero => simpa using (Bool.not_eq_true _).mp hp
        | succ j2 =>
          have hj2 : j2 < xs.length := by simpa using hj
          have := hbef j2 hj2 (by omega)
          simpa using this

theorem loc_le : ∀ {d : List Line} {i : Nat} {l : Line}, d[i]? = some l →
    pfx dgTok l = true → ∃ i0, locateStart d = some i0 ∧ i0 ≤ i := by
  intro d
  induction d with
  | nil => intro i l h _; rw [List.getElem?_nil] at h; cases h
  | cons x xs ih =>
    intro i l h hdg
    by_cases hp : pfx dgTok x
    · exact ⟨0, by rw [locateStart, if_pos hp], Nat.zero_le _⟩
    · cases i with
      | zero =>
        rw [List.getElem?_cons_zero] at h
        cases h
        exact absurd hdg (by simp [hp])
      | succ i2 =>
        rw [List.getElem?_cons_succ] at h
        obtain ⟨i0, heq, hle⟩ := ih h hdg
        exact ⟨i0 + 1, by rw [locateStart, if_neg hp, heq]; rfl, by omega⟩

/-- C6: a diff with no `diff --git` line fails with "Invalid diff"; otherwise
the lines before the first such line are discarded and the remaining phases
run on the document from that line on. -/
theorem locate_phase (d : List Line) :
    ((∀ l ∈ d, pfx dgTok l = false) → diff_replace d = .error "Invalid diff")
    ∧ ∀ i, locateStart d = some i →
        ∃ hi : i < d.length, pfx dgTok (d.get ⟨i, hi⟩) = true
          ∧ (∀ j, (hj : j < d.length) → j < i → pfx dgTok (d.get ⟨j, hj⟩) = false)
          ∧ diff_replace d = Except.map (List.map processLine) (stripLoop (d.drop i) 0) := by
  constructor
  · intro hno
    rw [diff_replace, loc_none_of hno]
  · intro i hi
    obtain ⟨hlt, hget, hbef⟩ := loc_some_spec hi
    exact ⟨hlt, hget, hbef, by rw [diff_replace, hi]⟩

/-- Witness for C6: a document with no header line is rejected. -/
theorem locate_phase_witness : diff_replace c6doc = .error "Invalid diff" :=
  (locate_phase c6doc).1 (by decide)

theorem sl_bad : ∀ (n : Nat) (d : List Line) (cur : Nat), d.length - cur = n →
    (∃ i, cur ≤ i ∧ (∃ l, d[i]? = some l ∧ (matchDiffGit l).isSome = true)
      ∧ ∀ j l2, i ≤ j → d[j]? = some l2 → pfx hunkTok l2 = false) →
    stripLoop d cur = .error "No end for last diff file" := by
  intro n
  induction n using Nat.strong_induction_on with
  | _ n ihn =>
    intro d cur hn hbad
    obtain ⟨i, hci, ⟨l, hdl, hml⟩, hnh⟩ := hbad
    have hil : i < d.length := (List.getElem?_eq_some.mp hdl).1
    rw [stripLoop]
    split
    · rename_i heq
      exfalso
      by_cases hc : cur < d.length
      · rw [List.getElem?_eq_getElem hc] at heq
        cases heq
      · omega
    · rename_i line heq
      have hcur : cur < d.length := (List.getElem?_eq_some.mp heq).1
      split
      case h_2 hm2 =>
        have hicur : i ≠ cur := by
          intro hEq
          subst hEq
          rw [heq] at hdl
          cases hdl
          rw [hm2] at hml
          cases hml
        apply ihn (d.length - (cur + 1)) (by omega) d (cur + 1) rfl
        exact ⟨i, by omega, ⟨l, hdl, hml⟩, hnh⟩
      case h_1 path hm2 =>
        split
        case h_1 hf => rfl
        case h_2 e hf =>
          have hcl : cur + e.val < d.length := by
            have := e.isLt
            simp only [List.length_drop] at this
            omega
          have hh := fhi_at hf
          have h1 : d[cur + e.val]? = some ((d.drop cur).get e) := by
            have h2 : (d.drop cur)[e.val]? = some ((d.drop cur).get e) := by
              rw [List.getElem?_eq_getElem e.isLt]
              simp [List.get_eq_getElem]
            rw [← h2]
            simp [List.getElem?_drop]
          by_cases hie : i ≤ cur + e.val
          · exfalso
            have hfalse := hnh (cur + e.val) ((d.drop cur).get e) hie h1
            rw [hh] at hfalse
            cases hfalse
          · push_neg at hie
            have hev1 : 1 ≤ e.val := by
              by_contra h0
              push_neg at h0
              have he0 : e.val = 0 := by omega
              have h2 : d[cur + e.val]? = some line := by
                rw [he0]
                simpa using heq
              rw [h2] at h1
              cases h1
              rw [mdg_not_hunk hm2] at hh
              cases hh
            have hmap : ∀ j, cur + 1 ≤ j →
                (d.take cur ++ markerLine path :: d.drop (cur + e.val + 1))[j]? = d[j + e.val]? := by
              intro j hj
              have hlt : (List.take cur d).length = cur := by
                simp [List.length_take]
                omega
              rw [List.getElem?_append_right (by rw [hlt]; omega), hlt]
              obtain ⟨m, hm⟩ : ∃ m, j - cur = m + 1 := ⟨j - cur - 1, by omega⟩
              rw [hm, List.getElem?_cons_succ]
              have h3 : (d.drop (cur + e.val + 1))[m]? = d[cur + e.val + 1 + m]? := by
                simp [List.getElem?_drop]
              rw [h3]
              congr 1
              omega
            have hlen2 : (d.take cur ++ markerLine path :: d.drop (cur + e.val + 1)).length
                = cur + 1 + (d.length - (cur + e.val + 1)) := by
              simp [List.length_append, List.length_take, List.length_drop]
              omega
            apply ihn ((d.take cur ++ markerLine path :: d.drop (cur + e.val + 1)).length - cur)
              (by rw [hlen2]; omega) _ cur rfl
            refine ⟨i - e.val, by omega, ⟨l, ?_, hml⟩, ?_⟩
            · rw [hmap (i - e.val) (by omega)]
              rw [show i - e.val + e.val = i by omega]
              exact hdl
            · intro j l2 hij hdj
              rw [hmap j (by omega)] at hdj
              exact hnh (j + e.val) l2 (by omega) hdj

/-- C7: a diff containing a header line with no later hunk-header line fails
with "No end for last diff file". -/
theorem malformed_header_fails (d : List Line) (i : Nat) (hi : i < d.length)
    (hm : (matchDiffGit (d.get ⟨i, hi⟩)).isSome = true)
    (hnh : ∀ j, (hj : j < d.length) → i ≤ j → pfx hunkTok (d.get ⟨j, hj⟩) = false) :
    diff_replace d = .error "No end for last diff file" := by
  obtain ⟨p, hp⟩ := Option.isSome_iff_exists.mp hm
  have hdg : pfx dgTok (d.get ⟨i, hi⟩) = true := mdg_dg hp
  have hgl : d[i]? = some (d.get ⟨i, hi⟩) := by
    rw [List.getElem?_eq_getElem hi]
    simp [List.get_eq_getElem]
  obtain ⟨i0, hloc, hle⟩ := loc_le hgl hdg
  rw [diff_replace, hloc]
  show Except.map (List.map processLine) (stripLoop (List.drop i0 d) 0)
      = .error "No end for last diff file"
  have hbadrec : stripLoop (d.drop i0) 0 = .error "No end for last diff file" := by
    apply sl_bad (d.drop i0).length _ 0 (by omega)
    refine ⟨i - i0, by omega, ⟨d.get ⟨i, hi⟩, ?_, by rw [hp]; rfl⟩, ?_⟩
    · have h4 : (d.drop i0)[i - i0]? = d[i0 + (i - i0)]? := by
        simp [List.getElem?_drop]
      rw [h4, show i0 + (i - i0) = i by omega]
      exact hgl
    · intro j l2 hij hdj
      have h4 : (d.drop i0)[j]? = d[i0 + j]? := by
        simp [List.getElem?_drop]
      rw [h4] at hdj
      have hjl : i0 + j < d.length := (List.getElem?_eq_some.mp hdj).1
      have h5 := hnh (i0 + j) hjl (by omega)
      rw [List.getElem?_eq_getElem hjl] at hdj
      have h6 : d.get ⟨i0 + j, hjl⟩ = l2 := by
        simpa [List.get_eq_getElem] using hdj
      rw [← h6]
      exact h5
  rw [hbadrec]
  rfl

/-- Witness for C7: a single header with no hunk line fails. -/
theorem malformed_header_fails_witness :
    diff_replace c7doc = .error "No end for last diff file" :=
  malformed_header_fails c7doc 0 (by decide) (by decide) (by decide)

theorem diff_replace_none {d : List Line} (hloc : locateStart d = none) :
    diff_replace d = .error "Invalid diff" := by
  rw [diff_replace, hloc]

theorem diff_replace_some {d : List Line} {i : Nat} (hloc : locateStart d = some i) :
    diff_replace d = Except.map (List.map processLine) (stripLoop (d.drop i) 0) := by
  rw [diff_replace, hloc]

theorem dropWhile_head_not {p : Char → Bool} : ∀ {l : Line} {c : Char} {t : Line},
    l.dropWhile p = c :: t → p c = false := by
  intro l
  induction l with
  | nil => intro c t h; cases h
  | cons x xs ih =>
    intro c t h
    rw [List.dropWhile_cons] at h
    by_cases hp : p x
    · rw [if_pos hp] at h
      exact ih h
    · rw [if_neg hp] at h
      cases h
      simpa using hp

theorem dropWhile_suffix_ex (p : Char → Bool) : ∀ (l : Line),
    ∃ t, l = t ++ l.dropWhile p ∧ ∀ c ∈ t, p c = true := by
  intro l
  induction l with
  | nil => exact ⟨[], rfl, by intro c hc; cases hc⟩
  | cons x xs ih =>
    by_cases hp : p x
    · obtain ⟨t, ht, hall⟩ := ih
      refine ⟨x :: t, ?_, ?_⟩
      · rw [List.dropWhile_cons, if_pos hp, List.cons_append, ← ht]
      · intro c hc
        rcases List.mem_cons.mp hc with rfl | hc2
        · exact hp
        · exact hall c hc2
    · refine ⟨[], ?_, by intro c hc; cases hc⟩
      rw [List.dropWhile_cons, if_neg hp, List.nil_append]

theorem stripTrailing_decomp (m : Line) :
    ∃ w, m = stripTrailing m ++ w ∧ ∀ c ∈ w, isPyWS c = true := by
  obtain ⟨t, ht, hall⟩ := dropWhile_suffix_ex isPyWS m.reverse
  refine ⟨t.reverse, ?_, ?_⟩
  · rw [stripTrailing]
    have := congrArg List.reverse ht
    rw [List.reverse_reverse, List.reverse_append] at this
    exact this
  · intro c hc
    exact hall c (List.mem_reverse.mp hc)

theorem pyStrip_eq_stripTrailing (l : Line) :
    pyStrip l = stripTrailing (l.dropWhile isPyWS) := rfl

theorem pyStrip_decomp (l : Line) :
    ∃ u w, (∀ c ∈ u, isPyWS c = true) ∧ (∀ c ∈ w, isPyWS c = true)
      ∧ l = u ++ pyStrip l ++ w := by
  obtain ⟨u, hu, hallu⟩ := dropWhile_suffix_ex isPyWS l
  obtain ⟨w, hw, hallw⟩ := stripTrailing_decomp (l.dropWhile isPyWS)
  refine ⟨u, w, hallu, hallw, ?_⟩
  rw [pyStrip_eq_stripTrailing, List.append_assoc, ← hw, ← hu]

theorem pyStrip_head_not {l : Line} {c : Char} {t : Line} (h : pyStrip l = c :: t) :
    isPyWS c = false := by
  obtain ⟨w, hw, _⟩ := stripTrailing_decomp (l.dropWhile isPyWS)
  rw [pyStrip_eq_stripTrailing] at h
  rw [h, List.cons_append] at hw
  exact dropWhile_head_not hw

theorem pyStrip_last_not {l : Line} {c : Char} (h : (pyStrip l).getLast? = some c) :
    isPyWS c = false := by
  rw [pyStrip] at h
  rw [List.getLast?_reverse] at h
  cases hdw : List.dropWhile isPyWS (List.dropWhile isPyWS l).reverse with
  | nil => rw [hdw] at h; cases h
  | cons x xs =>
    rw [hdw] at h
    cases h
    exact dropWhile_head_not hdw

theorem pyStrip_noEdge (l : Line) : noEdgeWS (pyStrip l) = true := by
  rw [noEdgeWS]
  have h1 : (match (pyStrip l).head? with
      | none => true
      | some c => !isPyWS c) = true := by
    cases hps : pyStrip l with
    | nil => rfl
    | cons c t =>
      simp only [List.head?_cons]
      simp [pyStrip_head_not hps]
  have h2 : (match (pyStrip l).getLast? with
      | none => true
      | some c => !isPyWS c) = true := by
    cases hlast : (pyStrip l).getLast? with
    | none => rfl
    | some c => simp [pyStrip_last_not hlast]
  rw [h1, h2]
  rfl

/-- C10: every line in the output of diff_replace has neither leading nor
trailing whitespace, markers included: each emitted line goes through
`line.strip()` before being appended. -/
theorem output_stripped (d out : List Line) (h : diff_replace d = .ok out) :
    ∀ l ∈ out, noEdgeWS l = true := by
  cases hloc : locateStart d with
  | none =>
    rw [diff_replace_none hloc] at h
    cases h
  | some i =>
    rw [diff_replace_some hloc] at h
    cases hs : stripLoop (d.drop i) 0 with
    | error e => rw [hs] at h; cases h
    | ok s =>
      rw [hs] at h
      have hout : List.map processLine s = out := by
        simpa [Except.map] using h
      intro l hl
      rw [← hout] at hl
      obtain ⟨x, _, rfl⟩ := List.mem_map.mp hl
      rw [processLine]
      exact pyStrip_noEdge _

/-- Witness for C10 on a concrete one-block document. -/
theorem output_stripped_witness :
    diff_replace c10doc = .ok c10out ∧ c10out.all noEdgeWS = true := by
  have hloc : locateStart c10doc = some 0 := by decide
  have h1 : diff_replace c10doc = .ok c10out := by
    rw [diff_replace_some hloc]
    have hmain := sl_main [sampleBlockB] [] (by intro l hl; cases hl) (by decide)
    have h2 : stripLoop (c10doc.drop 0) 0 = .ok ((List.map outBlock [sampleBlockB]).flatten) := by
      rw [List.drop_zero]
      simpa [c10doc] using hmain
    rw [h2]
    simp only [Except.map]
    exact congrArg Except.ok (by decide)
  refine ⟨h1, ?_⟩
  rw [List.all_eq_true]
  intro l hl
  exact output_stripped c10doc c10out h1 l hl

theorem highlightWrap_dash (cs : Line) :
    highlightWrap ('-' :: cs) = spanRemOpen ++ cs ++ spanCloseBr := by
  have hrest : spanRemOpen
      = '<' :: ("span style=".toList ++ sqc :: "background-color: #d88".toList ++ [sqc, '>']) := by
    decide
  simp [highlightWrap, hrest]

theorem highlightWrap_plus (cs : Line) :
    highlightWrap ('+' :: cs) = spanAddOpen ++ cs ++ spanCloseBr := by
  simp [highlightWrap]

theorem highlightWrap_other {c : Char} (cs : Line) (h1 : c ≠ '-') (h2 : c ≠ '+') :
    highlightWrap (c :: cs) = c :: cs := by
  simp [highlightWrap, h1, h2]

/-- C3: after token substitution, a non-empty line starting with `-` has its
remainder wrapped in the whole-line remove span, a line starting with `+` in
the whole-line add span, and an empty line passes through empty. -/
theorem wrap_line (l : Line) :
    (applyReplacements l = [] → processLine l = [])
    ∧ (∀ cs, applyReplacements l = '-' :: cs →
        processLine l = pyStrip (spanRemOpen ++ cs ++ spanCloseBr))
    ∧ (∀ cs, applyReplacements l = '+' :: cs →
        processLine l = pyStrip (spanAddOpen ++ cs ++ spanCloseBr)) := by
  refine ⟨?_, ?_, ?_⟩
  · intro h
    rw [processLine, h]
    rfl
  · intro cs h
    rw [processLine, h, highlightWrap_dash]
  · intro cs h
    rw [processLine, h, highlightWrap_plus]

/-- Witness for C3: the line `-removed text` becomes one remove span. -/
theorem wrap_line_witness :
    applyReplacements c3ex = '-' :: "removed text".toList
    ∧ processLine c3ex = pyStrip (spanRemOpen ++ "removed text".toList ++ spanCloseBr) :=
  ⟨by decide, (wrap_line c3ex).2.1 _ (by decide)⟩

/-- C5 amended: the final step strips whitespace from BOTH ends of the
substituted-and-wrapped line (Python `str.strip()`), not only the trailing
end: the emitted line is an inner segment of the wrapped line delimited by
whitespace on both sides, and carries no edge whitespace itself. -/
theorem strip_both_ends (l : Line) :
    ∃ u w, (∀ c ∈ u, isPyWS c = true) ∧ (∀ c ∈ w, isPyWS c = true)
      ∧ highlightWrap (applyReplacements l) = u ++ processLine l ++ w
      ∧ noEdgeWS (processLine l) = true := by
  obtain ⟨u, w, hu, hw, hdecomp⟩ := pyStrip_decomp (highlightWrap (applyReplacements l))
  refine ⟨u, w, hu, hw, ?_, ?_⟩
  · rw [processLine]
    exact hdecomp
  · rw [processLine]
    exact pyStrip_noEdge _

/-- Counterexample for C5 as stated: on the line ` a` the code emits `a`,
not the trailing-stripped line ` a`, so leading whitespace is not
preserved. -/
theorem strip_trailing_only_counterexample :
    processLine c5ex = ['a']
    ∧ stripTrailing (highlightWrap (applyReplacements c5ex)) = [' ', 'a']
    ∧ processLine c5ex ≠ stripTrailing (highlightWrap (applyReplacements c5ex)) :=
  ⟨by decide, by decide, by decide⟩

theorem twoStep {P : Line → Prop} (h0 : P []) (h1 : ∀ c, P [c])
    (h2 : ∀ c d cs, P cs → P (d :: cs) → P (c :: d :: cs)) : ∀ l, P l := by
  have key : ∀ l, P l ∧ P l.tail := by
    intro l
    induction l with
    | nil => exact ⟨h0, h0⟩
    | cons c t ih =>
      refine ⟨?_, ih.1⟩
      cases t with
      | nil => exact h1 c
      | cons d cs => exact h2 c d cs ih.2 ih.1
  exact fun l => (key l).1

theorem rep2_pos {a b : Char} {v : Line} {c d : Char} (cs : Line) (h : c = a ∧ d = b) :
    rep2 a b v (c :: d :: cs) = v ++ rep2 a b v cs := by
  simp only [rep2, if_pos h]

theorem rep2_neg {a b : Char} {v : Line} {c d : Char} (cs : Line) (h : ¬(c = a ∧ d = b)) :
    rep2 a b v (c :: d :: cs) = c :: rep2 a b v (d :: cs) := by
  simp only [rep2, if_neg h]

theorem rep2_one {a b : Char} {v : Line} (c : Char) : rep2 a b v [c] = [c] := rfl

theorem rep2_nil {a b : Char} {v : Line} : rep2 a b v [] = [] := rfl

theorem rep2_append {a b : Char} {v : Line} : ∀ (xs ys : Line),
    ¬(xs.getLast? = some a ∧ ys.head? = some b) →
    rep2 a b v (xs ++ ys) = rep2 a b v xs ++ rep2 a b v ys := by
  intro xs
  induction xs using twoStep with
  | h0 =>
    intro ys _
    simp [rep2_nil]
  | h1 c =>
    intro ys h
    cases ys with
    | nil => simp [rep2_one, rep2_nil]
    | cons y ys2 =>
      have hne : ¬(c = a ∧ y = b) := by
        intro ⟨hc, hy⟩
        exact h ⟨by rw [hc]; rfl, by rw [hy]; rfl⟩
      rw [List.singleton_append, rep2_neg ys2 hne, rep2_one]
      rfl
  | h2 c d cs ihcs ihdcs =>
    intro ys h
    by_cases hcd : c = a ∧ d = b
    · cases cs with
      | nil =>
        rw [show ([c, d] : Line) ++ ys = c :: d :: ys from rfl]
        rw [rep2_pos ys hcd, rep2_pos [] hcd, rep2_nil]
        simp
      | cons e cs2 =>
        have hb : ¬((e :: cs2).getLast? = some a ∧ ys.head? = some b) := by
          intro ⟨hl, hh⟩
          refine h ⟨?_, hh⟩
          rw [List.getLast?_cons_cons, List.getLast?_cons_cons]
          exact hl
        rw [show (c :: d :: e :: cs2) ++ ys = c :: d :: ((e :: cs2) ++ ys) from rfl]
        rw [rep2_pos _ hcd, ihcs ys hb, rep2_pos _ hcd]
        simp [List.append_assoc]
    · have hb : ¬((d :: cs).getLast? = some a ∧ ys.head? = some b) := by
        intro ⟨hl, hh⟩
        refine h ⟨?_, hh⟩
        rw [List.getLast?_cons_cons]
        exact hl
      rw [show (c :: d :: cs) ++ ys = c :: d :: (cs ++ ys) from rfl]
      rw [rep2_neg _ hcd, rep2_neg _ hcd]
      rw [show (d :: (cs ++ ys)) = (d :: cs) ++ ys from rfl]
      rw [ihdcs ys hb]
      rfl

/-- C4: in any line, an occurrence of the text `[-old-]{+new+}` is rewritten
by the token substitutions to remove-markup-start, `old`, markup-end,
add-markup-start, `new`, markup-end, in that order. -/
theorem word_token_rewrite (p q : Line) :
    applyReplacements (p ++ c4mid ++ q)
      = applyReplacements p ++ c4out ++ applyReplacements q := by
  have har : ∀ l, applyReplacements l
      = rep2 '+' '\x7d' spanClose
          (rep2 '\x7b' '+' spanAddOpen
            (rep2 '-' ']' spanClose
              (rep2 '[' '-' spanRemOpen l))) := fun _ => rfl
  rw [har, har, har, List.append_assoc]
  rw [rep2_append p (c4mid ++ q) ?hb1]
  case hb1 =>
    intro ⟨_, h2⟩
    rw [head?_append_left (by decide)] at h2
    exact absurd h2 (by decide)
  rw [rep2_append c4mid q ?hb2]
  case hb2 =>
    intro ⟨h1, _⟩
    exact absurd h1 (by decide)
  rw [show rep2 '[' '-' spanRemOpen c4mid = c4m1 from by decide]
  rw [rep2_append (rep2 '[' '-' spanRemOpen p) (c4m1 ++ rep2 '[' '-' spanRemOpen q) ?hb3]
  case hb3 =>
    intro ⟨_, h2⟩
    rw [head?_append_left (by decide)] at h2
    exact absurd h2 (by decide)
  rw [rep2_append c4m1 (rep2 '[' '-' spanRemOpen q) ?hb4]
  case hb4 =>
    intro ⟨h1, _⟩
    exact absurd h1 (by decide)
  rw [show rep2 '-' ']' spanClose c4m1 = c4m2 from by decide]
  rw [rep2_append (rep2 '-' ']' spanClose (rep2 '[' '-' spanRemOpen p))
    (c4m2 ++ rep2 '-' ']' spanClose (rep2 '[' '-' spanRemOpen q)) ?hb5]
  case hb5 =>
    intro ⟨_, h2⟩
    rw [head?_append_left (by decide)] at h2
    exact absurd h2 (by decide)
  rw [rep2_append c4m2 (rep2 '-' ']' spanClose (rep2 '[' '-' spanRemOpen q)) ?hb6]
  case hb6 =>
    intro ⟨h1, _⟩
    exact absurd h1 (by decide)
  rw [show rep2 '\x7b' '+' spanAddOpen c4m2 = c4m3 from by decide]
  rw [rep2_append
    (rep2 '\x7b' '+' spanAddOpen (rep2 '-' ']' spanClose (rep2 '[' '-' spanRemOpen p)))
    (c4m3 ++ rep2 '\x7b' '+' spanAddOpen (rep2 '-' ']' spanClose (rep2 '[' '-' spanRemOpen q)))
    ?hb7]
  case hb7 =>
    intro ⟨_, h2⟩
    rw [head?_append_left (by decide)] at h2
    exact absurd h2 (by decide)
  rw [rep2_append c4m3
    (rep2 '\x7b' '+' spanAddOpen (rep2 '-' ']' spanClose (rep2 '[' '-' spanRemOpen q))) ?hb8]
  case hb8 =>
    intro ⟨h1, _⟩
    exact absurd h1 (by decide)
  rw [show rep2 '+' '\x7d' spanClose c4m3 = c4out from by decide]
  simp [List.append_assoc]

/-- C8 (code behaviour): in the `--diff` branch, run reads only the first
line of the file (`fd.readline()`) and hands that single string on, so the
annotation step iterates its characters rather than the file's lines and
rejects even a valid diff file as invalid. -/
theorem file_source_first_line_only :
    readlineM c8file = "diff --git a/f\n".toList
    ∧ diff_replace (charLines (readlineM c8file)) = .error "Invalid diff" :=
  ⟨by decide, rfl⟩

/-- C9 (code behaviour): stderr is redirected into stdout, communicate()
yields err = None, and the failure branch is unreachable: diff_from_branch
always succeeds and returns the merged stream split into lines (the stderr
text appearing among them), while diff_from_sha always raises a TypeError
on the undecoded bytes. -/
theorem stderr_never_fails :
    (∀ p : ProcOutput, diff_from_branch p = .ok (splitNL (p.out ++ p.err)))
    ∧ diff_from_branch procErrSample = .ok ["line1".toList, "fatal: bad revision".toList]
    ∧ (∀ p : ProcOutput, diff_from_sha p = .error typeErrTok) :=
  ⟨fun _ => rfl, rfl, fun _ => rfl⟩

theorem pfx_cons_cons (a b : Char) (p l : Line) :
    pfx (a :: p) (b :: l) = (a == b && pfx p l) := rfl

theorem rep2_cons_ne {a b c : Char} {v : Line} (t : Line) (h : c ≠ a) :
    rep2 a b v (c :: t) = c :: rep2 a b v t := by
  cases t with
  | nil => rw [rep2_one, rep2_nil]
  | cons d cs => exact rep2_neg cs (fun hcd => h hcd.1)

theorem rep2_cons_nomatch {a b c : Char} {v t : Line} (h : ¬(c = a ∧ t.head? = some b)) :
    rep2 a b v (c :: t) = c :: rep2 a b v t := by
  cases t with
  | nil => rw [rep2_one, rep2_nil]
  | cons d cs =>
    refine rep2_neg cs fun ⟨h1, h2⟩ => h ⟨h1, ?_⟩
    rw [List.head?_cons, h2]

theorem rep2_head {a b : Char} {v : Line} (hv : v ≠ []) : ∀ (t : Line),
    (rep2 a b v t).head? = t.head? ∨ (rep2 a b v t).head? = v.head? := by
  intro t
  match t with
  | [] => left; rfl
  | [c] => left; rfl
  | c :: d :: cs =>
    by_cases hcd : c = a ∧ d = b
    · right
      rw [rep2_pos cs hcd, head?_append_left hv]
    · left
      rw [rep2_neg cs hcd]
      rfl

theorem noPair_cons2 (a b c d : Char) (t : Line) :
    noPair a b (c :: d :: t) = ((!(c == a && d == b)) && noPair a b (d :: t)) := rfl

theorem rep2_self {a b : Char} {v : Line} : ∀ {l : Line}, noPair a b l = true →
    rep2 a b v l = l := by
  have key : ∀ l : Line, noPair a b l = true → rep2 a b v l = l := by
    intro l
    induction l using twoStep with
    | h0 => intro _; rfl
    | h1 c => intro _; rfl
    | h2 c d cs ihcs ihdcs =>
      intro h
      rw [noPair_cons2, Bool.and_eq_true] at h
      have hcd : ¬(c = a ∧ d = b) := by
        intro ⟨h1, h2⟩
        rw [h1, h2] at h
        simp at h
      rw [rep2_neg cs hcd, ihdcs h.2]
  exact fun {l} => key l

theorem hasSub_pfx_false {p l : Line} (h : hasSub p l = false) : pfx p l = false := by
  cases l with
  | nil => exact h
  | cons c t =>
    rw [hasSub, Bool.or_eq_false_iff] at h
    exact h.1

theorem hasSub_tail {p : Line} {c : Char} {t : Line} (h : hasSub p (c :: t) = false) :
    hasSub p t = false := by
  rw [hasSub, Bool.or_eq_false_iff] at h
  exact h.2

theorem hasSub_cons_false {p : Line} {c : Char} {t : Line} (h1 : pfx p (c :: t) = false)
    (h2 : hasSub p t = false) : hasSub p (c :: t) = false := by
  rw [hasSub, h1, h2]
  rfl

theorem hasSub_append_nohead {x : Char} {p : Line} : ∀ (V X : Line),
    (∀ c ∈ V, c ≠ x) → hasSub (x :: p) X = false → hasSub (x :: p) (V ++ X) = false := by
  intro V
  induction V with
  | nil =>
    intro X _ h
    simpa using h
  | cons c V ih =>
    intro X hV hX
    rw [List.cons_append]
    apply hasSub_cons_false
    · have hc : (x == c) = false := by
        have := hV c (by simp)
        simp
        intro hE
        exact this hE.symm
      rw [pfx_cons_cons, hc]
      rfl
    · exact ih X (fun e he => hV e (by simp [he])) hX

theorem rep2_preserve_noSub {a b x y z : Char} {v : Line}
    (hxv : ∀ c ∈ v, c ≠ x) (hvnil : v ≠ [])
    (hvy : v.head? ≠ some y) (hvz : v.head? ≠ some z) :
    ∀ (l : Line), hasSub [x, y, z] l = false → hasSub [x, y, z] (rep2 a b v l) = false := by
  intro l
  induction l using twoStep with
  | h0 => intro h; exact h
  | h1 c =>
    intro h
    rw [rep2_one]
    exact h
  | h2 c d cs ihcs ihdcs =>
    intro h
    by_cases hcd : c = a ∧ d = b
    · rw [rep2_pos cs hcd]
      exact hasSub_append_nohead v _ hxv (ihcs (hasSub_tail (hasSub_tail h)))
    · rw [rep2_neg cs hcd]
      apply hasSub_cons_false
      · by_cases hcx : c = x
        · subst hcx
          cases cs with
          | nil =>
            rw [rep2_one]
            by_cases hdy : d = y
            · rw [pfx_cons_cons, pfx_cons_cons, hdy]
              simp [pfx]
            · rw [pfx_cons_cons, pfx_cons_cons]
              have : (y == d) = false := by
                simp
                intro hE
                exact hdy hE.symm
              simp [this]
          | cons e cs2 =>
            by_cases hde : d = a ∧ e = b
            · rw [rep2_pos cs2 hde]
              cases hv : v with
              | nil => exact absurd hv hvnil
              | cons vh vt =>
                rw [List.cons_append, pfx_cons_cons, pfx_cons_cons]
                have : (y == vh) = false := by
                  rw [hv] at hvy
                  simp at hvy
                  simp
                  intro hE
                  exact hvy hE.symm
                simp [this]
            · rw [rep2_neg cs2 hde]
              by_cases hdy : d = y
              · subst hdy
                have hpz : ∀ w : Line, w.head? ≠ some z → pfx [c, d, z] (c :: d :: w) = false := by
                  intro w hw
                  rw [pfx_cons_cons, pfx_cons_cons]
                  cases w with
                  | nil => simp [pfx]
                  | cons w0 wt =>
                    rw [List.head?_cons] at hw
                    have : (z == w0) = false := by
                      simp
                      intro hE
                      exact hw (by rw [hE])
                    rw [pfx_cons_cons, this]
                    simp
                have hez : (z == e) = false := by
                  have h1 := hasSub_pfx_false h
                  rw [pfx_cons_cons, pfx_cons_cons, pfx_cons_cons] at h1
                  simpa [pfx] using h1
                apply hpz
                rcases rep2_head hvnil (e :: cs2) with hh | hh
                · rw [hh, List.head?_cons]
                  intro hE
                  have : (z == e) = true := by
                    simp
                    exact (Option.some.inj hE).symm
                  rw [this] at hez
                  cases hez
                · rw [hh]
                  exact hvz
              · rw [pfx_cons_cons, pfx_cons_cons]
                have : (y == d) = false := by
                  simp
                  intro hE
                  exact hdy hE.symm
                simp [this]
        · rw [pfx_cons_cons]
          have : (x == c) = false := by
            simp
            intro hE
            exact hcx hE.symm
          rw [this]
          rfl
      · exact ihdcs (hasSub_tail h)

theorem rep2_comm_disjoint {a b a2 b2 : Char} {v v2 : Line}
    (haa : a ≠ a2) (hba : b ≠ a2) (hab : b2 ≠ a)
    (hvnil : v ≠ []) (hv2nil : v2 ≠ [])
    (hvl : v.getLast? ≠ some a2) (hv2l : v2.getLast? ≠ some a)
    (hvh : v.head? ≠ some b2) (hv2h : v2.head? ≠ some b)
    (hvp : noPair a2 b2 v = true) (hv2p : noPair a b v2 = true) :
    ∀ l, rep2 a2 b2 v2 (rep2 a b v l) = rep2 a b v (rep2 a2 b2 v2 l) := by
  intro l
  induction l using twoStep with
  | h0 => rfl
  | h1 c => simp only [rep2_one]
  | h2 c d cs ihcs ihdcs =>
    by_cases hcd : c = a ∧ d = b
    · rw [rep2_pos cs hcd]
      rw [rep2_append v (rep2 a b v cs) (fun ⟨h1, _⟩ => hvl h1)]
      rw [rep2_self hvp]
      rw [rep2_cons_ne (d :: cs) (show c ≠ a2 from fun hE => haa (hcd.1.symm.trans hE))]
      rw [rep2_cons_ne cs (show d ≠ a2 from fun hE => hba (hcd.2.symm.trans hE))]
      rw [rep2_pos _ hcd]
      rw [ihcs]
    · by_cases hcd2 : c = a2 ∧ d = b2
      · rw [rep2_pos cs hcd2]
        rw [rep2_cons_ne (d :: cs) (show c ≠ a from fun hE => haa (hE.symm.trans hcd2.1))]
        rw [rep2_cons_ne cs (show d ≠ a from fun hE => hab (hcd2.2.symm.trans hE))]
        rw [rep2_pos _ hcd2]
        rw [rep2_append v2 (rep2 a2 b2 v2 cs) (fun ⟨h1, _⟩ => hv2l h1)]
        rw [rep2_self hv2p]
        rw [ihcs]
      · rw [rep2_neg cs hcd, rep2_neg cs hcd2]
        have hL : rep2 a2 b2 v2 (c :: rep2 a b v (d :: cs))
            = c :: rep2 a2 b2 v2 (rep2 a b v (d :: cs)) := by
          apply rep2_cons_nomatch
          intro ⟨hca2, hhead⟩
          rcases rep2_head hvnil (d :: cs) with hh | hh
          · rw [hh, List.head?_cons] at hhead
            exact hcd2 ⟨hca2, Option.some.inj hhead⟩
          · rw [hh] at hhead
            exact hvh hhead
        have hR : rep2 a b v (c :: rep2 a2 b2 v2 (d :: cs))
            = c :: rep2 a b v (rep2 a2 b2 v2 (d :: cs)) := by
          apply rep2_cons_nomatch
          intro ⟨hca, hhead⟩
          rcases rep2_head hv2nil (d :: cs) with hh | hh
          · rw [hh, List.head?_cons] at hhead
            exact hcd ⟨hca, Option.some.inj hhead⟩
          · rw [hh] at hhead
            exact hv2h hhead
        rw [hL, hR, ihdcs]

theorem rep2_comm_pair {x y z : Char} {v1 v2 : Line}
    (hxy : x ≠ y) (hxz : x ≠ z)
    (hv1nil : v1 ≠ []) (hv2nil : v2 ≠ [])
    (hv1l : v1.getLast? ≠ some y) (hv2l : v2.getLast? ≠ some x)
    (hv1h : v1.head? ≠ some z) (hv2h : v2.head? ≠ some y)
    (hv1p : noPair y z v1 = true) (hv2p : noPair x y v2 = true) :
    ∀ l, hasSub [x, y, z] l = false →
      rep2 y z v2 (rep2 x y v1 l) = rep2 x y v1 (rep2 y z v2 l) := by
  intro l
  induction l using twoStep with
  | h0 => intro _; rfl
  | h1 c => intro _; simp only [rep2_one]
  | h2 c d cs ihcs ihdcs =>
    intro h
    by_cases hcd : c = x ∧ d = y
    · have hzcs : cs.head? ≠ some z := by
        intro hh
        cases cs with
        | nil => cases hh
        | cons e cs2 =>
          rw [List.head?_cons] at hh
          have h1 := hasSub_pfx_false h
          rw [hcd.1, hcd.2, Option.some.inj hh] at h1
          rw [pfx_cons_cons, pfx_cons_cons, pfx_cons_cons] at h1
          simp [pfx] at h1
      rw [rep2_pos cs hcd]
      rw [rep2_append v1 (rep2 x y v1 cs) (fun ⟨h1, _⟩ => hv1l h1)]
      rw [rep2_self hv1p]
      rw [rep2_cons_nomatch (show ¬(c = y ∧ (d :: cs).head? = some z) from
        fun ⟨h1, _⟩ => hxy (hcd.1.symm.trans h1))]
      rw [rep2_cons_nomatch (show ¬(d = y ∧ cs.head? = some z) from
        fun ⟨_, h2⟩ => hzcs h2)]
      rw [rep2_pos _ hcd]
      rw [ihcs (hasSub_tail (hasSub_tail h))]
    · by_cases hcd2 : c = y ∧ d = z
      · rw [rep2_cons_ne (d :: cs) (show c ≠ x from fun hE => hxy (hE.symm.trans hcd2.1))]
        rw [rep2_cons_ne cs (show d ≠ x from fun hE => hxz (hE.symm.trans hcd2.2))]
        rw [rep2_pos _ hcd2]
        rw [rep2_pos cs hcd2]
        rw [rep2_append v2 (rep2 y z v2 cs) (fun ⟨h1, _⟩ => hv2l h1)]
        rw [rep2_self hv2p]
        rw [ihcs (hasSub_tail (hasSub_tail h))]
      · rw [rep2_neg cs hcd, rep2_neg cs hcd2]
        have hL : rep2 y z v2 (c :: rep2 x y v1 (d :: cs))
            = c :: rep2 y z v2 (rep2 x y v1 (d :: cs)) := by
          apply rep2_cons_nomatch
          intro ⟨hcy, hhead⟩
          rcases rep2_head hv1nil (d :: cs) with hh | hh
          · rw [hh, List.head?_cons] at hhead
            exact hcd2 ⟨hcy, Option.some.inj hhead⟩
          · rw [hh] at hhead
            exact hv1h hhead
        have hR : rep2 x y v1 (c :: rep2 y z v2 (d :: cs))
            = c :: rep2 x y v1 (rep2 y z v2 (d :: cs)) := by
          apply rep2_cons_nomatch
          intro ⟨hcx, hhead⟩
          rcases rep2_head hv2nil (d :: cs) with hh | hh
          · rw [hh, List.head?_cons] at hhead
            exact hcd ⟨hcx, Option.some.inj hhead⟩
          · rw [hh] at hhead
            exact hv2h hhead
        rw [hL, hR, ihdcs (hasSub_tail h)]

theorem noOv_parts {l : Line} (h : noOv l = true) :
    hasSub ovRem l = false ∧ hasSub ovAdd l = false := by
  simp only [noOv, Bool.and_eq_true, Bool.not_eq_true'] at h
  exact h

theorem rules_pair_comm : ∀ r1 ∈ rules, ∀ r2 ∈ rules, ∀ l, noOv l = true →
    applyRule (applyRule l r1) r2 = applyRule (applyRule l r2) r1 := by
  intro r1 hr1 r2 hr2 l hg
  obtain ⟨hrem, hadd⟩ := noOv_parts hg
  simp only [rules, List.mem_cons, List.mem_singleton, List.not_mem_nil, or_false] at hr1 hr2
  rcases hr1 with rfl | rfl | rfl | rfl <;> rcases hr2 with rfl | rfl | rfl | rfl <;>
    simp only [applyRule, ruleRemOpen, ruleRemClose, ruleAddOpen, ruleAddClose] <;>
    first
      | rfl
      | exact rep2_comm_pair (by decide) (by decide) (by decide) (by decide) (by decide)
          (by decide) (by decide) (by decide) (by decide) (by decide) l hrem
      | exact (rep2_comm_pair (by decide) (by decide) (by decide) (by decide) (by decide)
          (by decide) (by decide) (by decide) (by decide) (by decide) l hrem).symm
      | exact rep2_comm_pair (by decide) (by decide) (by decide) (by decide) (by decide)
          (by decide) (by decide) (by decide) (by decide) (by decide) l hadd
      | exact (rep2_comm_pair (by decide) (by decide) (by decide) (by decide) (by decide)
          (by decide) (by decide) (by decide) (by decide) (by decide) l hadd).symm
      | exact rep2_comm_disjoint (by decide) (by decide) (by decide) (by decide) (by decide)
          (by decide) (by decide) (by decide) (by decide) (by decide) (by decide) l

theorem rules_preserve_noOv : ∀ r ∈ rules, ∀ l, noOv l = true →
    noOv (applyRule l r) = true := by
  intro r hr l hg
  obtain ⟨hrem, hadd⟩ := noOv_parts hg
  simp only [noOv, Bool.and_eq_true, Bool.not_eq_true']
  simp only [rules, List.mem_cons, List.mem_singleton, List.not_mem_nil, or_false] at hr
  rcases hr with rfl | rfl | rfl | rfl <;>
    simp only [applyRule, ruleRemOpen, ruleRemClose, ruleAddOpen, ruleAddClose] <;>
    exact ⟨rep2_preserve_noSub (by decide) (by decide) (by decide) (by decide) l hrem,
           rep2_preserve_noSub (by decide) (by decide) (by decide) (by decide) l hadd⟩

theorem applyRules_perm : ∀ {rs1 rs2 : List Rule}, List.Perm rs1 rs2 →
    (∀ r ∈ rs1, r ∈ rules) → ∀ l, noOv l = true →
    applyRules rs1 l = applyRules rs2 l := by
  intro rs1 rs2 hp
  induction hp with
  | nil => intro _ l _; rfl
  | cons r hp ih =>
    intro hsub l hg
    simp only [applyRules, List.foldl_cons]
    exact ih (fun r2 hr2 => hsub r2 (List.mem_cons_of_mem _ hr2)) (applyRule l r)
      (rules_preserve_noOv r (hsub r (List.mem_cons_self _ _)) l hg)
  | swap r1 r2 t =>
    intro hsub l hg
    simp only [applyRules, List.foldl_cons]
    have hc := rules_pair_comm r2 (hsub r2 (by simp)) r1 (hsub r1 (by simp)) l hg
    rw [hc]
  | trans hp1 _ ih1 ih2 =>
    intro hsub l hg
    exact (ih1 hsub l hg).trans (ih2 (fun r hr => hsub r (hp1.mem_iff.mpr hr)) l hg)

/-- Counterexample to C2 as stated: on the line `[-]` the two remove-token
substitutions overlap, and swapping their order changes the result. -/
theorem subst_order_counterexample :
    List.Perm ordSwap rules ∧ applyRules ordSwap c2cex ≠ applyRules rules c2cex :=
  ⟨by decide, by decide⟩

/-- C2 amended: the four word-diff token substitutions applied in any order
yield the same resulting line for every line in which no token occurrences
overlap, i.e. every line containing neither `[-]` nor `{+}` as a substring;
without that proviso the substitutions of one pair need not commute. -/
theorem subst_order_amended (rs : List Rule) (l : Line) (hp : List.Perm rs rules)
    (hg : noOv l = true) : applyRules rs l = applyReplacements l :=
  applyRules_perm hp (fun r hr => hp.mem_iff.mp hr) l hg

/-- Witness for the amended C2: the rules applied in reverse order agree with
the code's order on an overlap-free word-diff line. -/
theorem subst_order_amended_witness :
    applyRules ordRev c2wex = applyReplacements c2wex :=
  subst_order_amended ordRev c2wex (by decide) (by decide)
